import Mathlib

set_option autoImplicit false

/-!
# Verification of the hooch-http HTTP/1.1 server core

Shallow embedding of the repository's protocol layer: the byte-level request
parser (`src/request.rs`), the URI pattern matcher (`Uri::is_match`), the
fixed-capacity header store, the response builder/serializer
(`src/response.rs`), and the middleware/router dispatch loop (`src/app.rs`).

Modelling conventions:
* Text is modelled as `List Char`, byte buffers as `List Nat`.  The matcher's
  positions are character positions; the Rust source mixes byte indices (from
  `char_indices` and slicing) with character counts (the `Cursor` values),
  which coincide on ASCII input, and every concrete input below is ASCII.
* Rust panics (`unwrap`, `panic!`, implicit bounds-check failures) are
  modelled by `Option.none` of the enclosing function; the source has no
  error-return path, so `none` always means "the task aborts here".
* The fixed arrays backing `Segment` and `Headers` are modelled as total
  maps `Nat → Option (List Char)` plus the `num` count, exactly mirroring
  the source's writes; capacity limits are noted at each insert operation.
-/

namespace Hooch

/-- `enumFrom i l`: the elements of `l` paired with positions `i, i+1, …`.
Models Rust's `char_indices` (byte index = char index on ASCII). -/

def enumFrom {α : Type} : Nat → List α → List (Nat × α)
  | _, [] => []
  | i, a :: l => (i, a) :: enumFrom (i + 1) l

/-- `slice l a b` models the Rust slice `l[a..b]`.  Rust panics when
`a > b` or `b > l.length`; the model truncates instead, and every theorem
below only meets `slice` in bounds, where the two agree. -/

def slice {α : Type} (l : List α) (a b : Nat) : List α := (l.drop a).take (b - a)

/-- Rust `str::split(c)`: splits at every occurrence of `c`, keeping empty
fragments, always yielding at least one fragment. -/

def splitChar (c : Char) : List Char → List (List Char)
  | [] => [[]]
  | x :: r =>
    if x = c then [] :: splitChar c r
    else
      match splitChar c r with
      | h :: t => (x :: h) :: t
      | [] => [[x]]

/-- Rust `str::splitn(2, c)`: the fragment before the first `c`, and the
remainder after it (`none` when `c` does not occur). -/

def splitFirst (c : Char) : List Char → List Char × Option (List Char)
  | [] => ([], none)
  | x :: r =>
    if x = c then ([], some r)
    else
      let p := splitFirst c r
      (x :: p.1, p.2)

/-- Position of the first occurrence of `c`, or the length of the list when
`c` is absent.  Models the `end_idx` search in `Uri::is_match` (lines
515-521 of `request.rs`). -/

def firstIdxOrLen (c : Char) : List Char → Nat
  | [] => 0
  | x :: r => if x = c then 0 else firstIdxOrLen c r + 1

/-- The number of cursor increments performed by the value-capture `while`
loop in `Uri::is_match` (lines 456-462): starting at the head of the list,
advance while the current character differs from `c` and a next character
exists.  Stops on the first `c`, or on the final element when `c` never
appears. -/

def scanLen (c : Char) : List Char → Nat
  | [] => 0
  | [_] => 0
  | x :: y :: r => if x = c then 0 else scanLen c (y :: r) + 1

/-! ## Segment / Params (`request.rs` lines 242-409) -/

/-- `Segment<'a, T>`: fixed-capacity key/value store.  The two phantom-marker
instantiations (`PathSegment`, `QuerySegment`) share this one representation.
The backing arrays have capacity 1024 in the source; an insert at
`num ≥ 1024` would panic in Rust, and every theorem below stays strictly
below that capacity. -/

structure Segment where
  key : Nat → Option (List Char)
  value : Nat → Option (List Char)
  num : Nat
  iterCnt : Nat

/-- Pointwise array update (Rust `self.key[i] = v`). -/

def updArr (f : Nat → Option (List Char)) (i : Nat) (v : Option (List Char)) :
    Nat → Option (List Char) :=
  fun j => if j = i then v else f j

def Segment.new : Segment :=
  { key := fun _ => none, value := fun _ => none, num := 0, iterCnt := 0 }

/-- `Segment::insert_key_value`. -/

def Segment.insert_key_value (s : Segment) (k : List Char) (v : Option (List Char)) : Segment :=
  { s with key := updArr s.key s.num (some k),
           value := updArr s.value s.num v,
           num := s.num + 1 }

/-- `Segment::insert_key` (writes the key slot, does not advance `num`). -/

def Segment.insert_key (s : Segment) (k : List Char) : Segment :=
  { s with key := updArr s.key s.num (some k) }

/-- `Segment::insert_value` (writes the value slot and advances `num`). -/

def Segment.insert_value (s : Segment) (v : Option (List Char)) : Segment :=
  { s with value := updArr s.value s.num v, num := s.num + 1 }

/-- The sequence an iteration pass over the segment yields: for each stored
index `i < num`, the pair `(key[i], value[i])` in storage order. -/

def Segment.entries (s : Segment) : List (Option (List Char) × Option (List Char)) :=
  (List.range s.num).map fun i => (s.key i, s.value i)

/-- `Params`: path captures + query captures of one match attempt. -/

structure Params where
  path_segment : Segment
  query_fragment : Segment

def Params.new : Params := ⟨Segment.new, Segment.new⟩

/-! ## `Uri::parse_segment` (`request.rs` lines 548-559) -/

/-- Parse the query portion: split on `&`, then each fragment at the first
`=` into key and optional value. -/

def parse_segment (s : List Char) : Segment :=
  (splitChar '&' s).foldl
    (fun seg frag =>
      let p := splitFirst '=' frag
      seg.insert_key_value p.1 p.2)
    Segment.new

/-! ## `Uri::is_match` (`request.rs` lines 423-545)

The `for (idx, c) in cmp_uri.char_indices()` loop is embedded as a step
function over `enumFrom 0 p` threading the mutable state. The cursor pair
is flattened into the state record: `cursor_uri.idx ↦ uriIdx`,
`cursor_uri.start_idx ↦ uriStart`, `cursor_cmp_uri.idx ↦ cmpIdx`,
`cursor_cmp_uri.start_idx ↦ cmpStart`. -/

structure MState where
  startIdx : Nat          -- start_idx
  bracketHit : Bool       -- bracket_hit
  bracketHitIdx : Nat     -- bracket_hit_idx
  recordUriChar : Bool    -- record_uri_char
  endWithValue : Bool     -- end_with_value
  uriIdx : Nat
  uriStart : Nat
  cmpIdx : Nat
  cmpStart : Nat
  seg : Segment           -- path_segment

def MState.init : MState :=
  { startIdx := 0, bracketHit := false, bracketHitIdx := 0,
    recordUriChar := false, endWithValue := false,
    uriIdx := 0, uriStart := 0, cmpIdx := 0, cmpStart := 0,
    seg := Segment.new }

/-- The `if record_uri_char` block (lines 445-468).  Returns the updated
state and whether the loop `break`s (the character iterator over the
concrete URI was already exhausted). -/

def doRecord (u : List Char) (c : Char) (st : MState) : MState × Bool :=
  let st := { st with endWithValue := false, cmpStart := st.cmpIdx }
  match u.drop st.uriIdx with
  | [] => (st, true)
  | l@(_ :: _) =>
    let n := scanLen c l
    let endIdx := st.uriIdx + n
    let value := slice u st.uriIdx endIdx
    ({ st with seg := st.seg.insert_value (some value),
               uriIdx := endIdx, uriStart := endIdx,
               recordUriChar := false }, false)

inductive StepRes where
  | ret                -- `return None`
  | brk (st : MState)  -- `break` out of the loop
  | cont (st : MState) -- next iteration

/-- Lines 470-500: the `{` check, the bracket branch, and the cursor
advancement, for one loop iteration after the record block ran. -/

def afterRecord (p : List Char) (u : List Char) (idx : Nat) (c : Char) (st : MState) : StepRes :=
  if c = '{' then
    if slice p st.cmpStart st.cmpIdx ≠ slice u st.uriStart st.uriIdx then .ret
    else
      let st := { st with bracketHit := true, bracketHitIdx := idx }
      -- bracketHit is now true and c ≠ '}', so only cmpIdx advances
      .cont { st with cmpIdx := st.cmpIdx + 1 }
  else if st.bracketHit then
    let st :=
      if c = '}' then
        { st with bracketHit := false, startIdx := idx + 1,
                  recordUriChar := true, endWithValue := true,
                  seg := st.seg.insert_key (slice p (st.bracketHitIdx + 1) idx),
                  cmpStart := st.cmpIdx }
      else st
    .cont { st with cmpIdx := st.cmpIdx + 1 }
  else
    .cont { st with uriIdx := st.uriIdx + 1, cmpIdx := st.cmpIdx + 1 }

/-- One iteration of the `for` loop. -/

def loopStep (u p : List Char) (ic : Nat × Char) (st0 : MState) : StepRes :=
  let r := if st0.recordUriChar then doRecord u ic.2 st0 else (st0, false)
  if r.2 then .brk r.1
  else afterRecord p u ic.1 ic.2 r.1

/-- The whole `for` loop; `none` models `return None` (line 475). -/

def loopGo (u p : List Char) : List (Nat × Char) → MState → Option MState
  | [], st => some st
  | ic :: rest, st =>
    match loopStep u p ic st with
    | .ret => none
    | .brk st' => some st'
    | .cont st' => loopGo u p rest st'

/-- Lines 503-544: query handling, trailing-value capture, parameter
packaging and the final suffix comparison. -/

def finishMatch (u p : List Char) (st : MState) : Option Params :=
  let params : Option Params :=
    if u.contains '?' then
      some { Params.new with
             query_fragment := parse_segment ((splitChar '?' u).getLastD []) }
    else none
  let seg :=
    if st.endWithValue then
      st.seg.insert_value (some (slice u st.uriIdx (firstIdxOrLen '?' u)))
    else st.seg
  let params :=
    if seg.num > 0 then some { params.getD Params.new with path_segment := seg }
    else params
  if st.startIdx ≥ p.length then params
  else if u.drop st.uriStart ≠ p.drop st.cmpStart then params
  else some (params.getD Params.new)

/-- `Uri::is_match(self = u, cmp_uri = p)`. -/

def is_match (u p : List Char) : Option Params :=
  match loopGo u p (enumFrom 0 p) MState.init with
  | none => none
  | some st => finishMatch u p st

/-- Path and query entries of a match result, the shape the segment
iterators replay. -/

def matchEntries (r : Option Params) :
    Option (List (Option (List Char) × Option (List Char)) ×
            List (Option (List Char) × Option (List Char))) :=
  r.map fun q => (q.path_segment.entries, q.query_fragment.entries)

/-! ## Shared enumerations (`shared.rs`) -/

inductive HttpMethod where
  | GET | HEAD | OPTIONS | POST | PUT | PATCH | DELETE
  deriving DecidableEq, Repr

inductive HttpVersion where
  | OnePointOne
  deriving DecidableEq, Repr

/-- ASCII bytes of a string literal (all concrete inputs are ASCII). -/

def strBytes (s : String) : List Nat := s.toList.map Char.toNat

/-- `impl From<&[u8]> for HttpMethod`: the source `panic!`s on any
unrecognized method, modelled as `none`. -/

def httpMethodFromBytes (b : List Nat) : Option HttpMethod :=
  if b = strBytes "GET" then some .GET
  else if b = strBytes "HEAD" then some .HEAD
  else if b = strBytes "OPTIONS" then some .OPTIONS
  else if b = strBytes "POST" then some .POST
  else if b = strBytes "PUT" then some .PUT
  else if b = strBytes "PATCH" then some .PATCH
  else if b = strBytes "DELETE" then some .DELETE
  else none

/-- `impl From<&[u8]> for HttpVersion`: `panic!`s (modelled `none`) on
anything but `HTTP/1.1`. -/

def httpVersionFromBytes (b : List Nat) : Option HttpVersion :=
  if b = strBytes "HTTP/1.1" then some .OnePointOne else none

/-! ## Byte-level helpers for the wire parser -/

def CRLF : List Nat := [13, 10]

def CRLF2 : List Nat := [13, 10, 13, 10]

/-- Rust `bytes.windows(pat.len()).position(|w| w == pat)`. -/

def findSub (pat : List Nat) : List Nat → Option Nat
  | [] => none
  | x :: t =>
    if pat.isPrefixOf (x :: t) then some 0
    else (findSub pat t).map (· + 1)

/-- Rust `slice::split(|b| *b == sep)`: always at least one fragment. -/

def splitByte (sep : Nat) : List Nat → List (List Nat)
  | [] => [[]]
  | x :: r =>
    if x = sep then [] :: splitByte sep r
    else
      match splitByte sep r with
      | h :: t => (x :: h) :: t
      | [] => [[x]]

/-- Position of the first byte equal to `b`
(Rust `iter().position(|byte| *byte == b)`). -/

def posOf (b : Nat) : List Nat → Option Nat
  | [] => none
  | x :: r => if x = b then some 0 else (posOf b r).map (· + 1)

/-- `std::str::from_utf8`, as a decoder to a character list: strict UTF-8
(continuation bytes checked, overlong encodings, surrogates and values above
`0x10FFFF` rejected).  `none` models `Err`, which every caller `unwrap`s. -/

def utf8Decode : List Nat → Option (List Char)
  | [] => some []
  | b :: rest =>
    if b < 0x80 then (utf8Decode rest).map (fun cs => Char.ofNat b :: cs)
    else if b < 0xC2 then none
    else if b < 0xE0 then
      match rest with
      | b1 :: r =>
        if 0x80 ≤ b1 ∧ b1 ≤ 0xBF then
          (utf8Decode r).map (fun cs => Char.ofNat ((b - 0xC0) * 0x40 + (b1 - 0x80)) :: cs)
        else none
      | [] => none
    else if b < 0xF0 then
      match rest with
      | b1 :: b2 :: r =>
        if (if b = 0xE0 then 0xA0 ≤ b1 ∧ b1 ≤ 0xBF
            else if b = 0xED then 0x80 ≤ b1 ∧ b1 ≤ 0x9F
            else 0x80 ≤ b1 ∧ b1 ≤ 0xBF) ∧ 0x80 ≤ b2 ∧ b2 ≤ 0xBF then
          (utf8Decode r).map
            (fun cs => Char.ofNat ((b - 0xE0) * 0x1000 + (b1 - 0x80) * 0x40 + (b2 - 0x80)) :: cs)
        else none
      | _ => none
    else if b < 0xF5 then
      match rest with
      | b1 :: b2 :: b3 :: r =>
        if (if b = 0xF0 then 0x90 ≤ b1 ∧ b1 ≤ 0xBF
            else if b = 0xF4 then 0x80 ≤ b1 ∧ b1 ≤ 0x8F
            else 0x80 ≤ b1 ∧ b1 ≤ 0xBF) ∧ 0x80 ≤ b2 ∧ b2 ≤ 0xBF ∧ 0x80 ≤ b3 ∧ b3 ≤ 0xBF then
          (utf8Decode r).map
            (fun cs => Char.ofNat
              ((b - 0xF0) * 0x40000 + (b1 - 0x80) * 0x1000 + (b2 - 0x80) * 0x40 + (b3 - 0x80)) :: cs)
        else none
      | _ => none
    else none

/-! ## Header store (`request.rs` lines 590-621) -/

def MAX_NUM_HEADERS : Nat := 1000

/-- `Headers<'a>`: two fixed arrays of capacity `MAX_NUM_HEADERS` plus a
count, modelled as total maps (see `Segment`). -/

structure Headers where
  keys : Nat → Option (List Char)
  values : Nat → Option (List Char)
  num : Nat

def Headers.new : Headers := ⟨fun _ => none, fun _ => none, 0⟩

/-- `Headers::add_key_value`: the source writes `self.keys[self.num]`
unconditionally; when `num` has reached the array capacity the index is out
of bounds and Rust aborts the task — modelled as `none`. -/

def Headers.add_key_value (h : Headers) (k v : List Char) : Option Headers :=
  if h.num < MAX_NUM_HEADERS then
    some { keys := updArr h.keys h.num (some k),
           values := updArr h.values h.num (some v),
           num := h.num + 1 }
  else none

/-- Stored header pairs in insertion order. -/

def Headers.entries (h : Headers) : List (Option (List Char) × Option (List Char)) :=
  (List.range h.num).map fun i => (h.keys i, h.values i)

/-! ## Wire parser (`request.rs` lines 87-209) -/

/-- `HttpRequest::get_request_line`: everything before the first CRLF;
`unwrap` panics (→ `none`) when no CRLF exists. -/

def get_request_line (bytes : List Nat) : Option (List Nat) :=
  (findSub CRLF bytes).map fun idx => bytes.take idx

/-- `HttpRequest::get_headers`: skip past the first CRLF, then search the
*remainder* for CRLFCRLF; the span up to it is the header block.  Both
`position` results are `unwrap`ped. -/

def get_headers (bytes : List Nat) : Option (List Nat) := do
  let idx ← (findSub CRLF bytes).map (· + 2)
  let headerBytesIdx ← findSub CRLF2 (bytes.drop idx)
  some ((bytes.drop idx).take headerBytesIdx)

/-- `HttpRequest::get_body`: everything after the first CRLFCRLF, decoded
as UTF-8. -/

def get_body (bytes : List Nat) : Option (List Char) := do
  let idx ← (findSub CRLF2 bytes).map (· + 4)
  utf8Decode (bytes.drop idx)

/-- `HttpRequest::extract_http_method`: first space-separated token. -/

def extract_http_method (bytes : List Nat) : Option HttpMethod :=
  httpMethodFromBytes ((splitByte 32 bytes).headD [])

/-- `HttpRequest::extract_request_uri`: second space-separated token
(`unwrap` → `none` when missing), decoded as UTF-8. -/

def extract_request_uri (bytes : List Nat) : Option (List Char) := do
  let tok ← (splitByte 32 bytes)[1]?
  utf8Decode tok

/-- `HttpRequest::extract_http_version`: third space-separated token. -/

def extract_http_version (bytes : List Nat) : Option HttpVersion := do
  let tok ← (splitByte 32 bytes)[2]?
  httpVersionFromBytes tok

/-- `HttpRequest::get_header_key_and_value`: split one header line at the
first colon; the byte *immediately after* the colon is read unconditionally
(`bytes[colon_idx + 1]`), so a line whose final byte is the colon makes
Rust abort with an out-of-bounds index (→ `none`).  All failure points
(`position` unwrap, the bounds check, both `from_utf8` unwraps) collapse to
`none`. -/

def get_header_key_and_value (bytes : List Nat) : Option (List Char × List Char) := do
  let colonIdx ← posOf 58 bytes
  if colonIdx + 1 < bytes.length then
    let whitespaceOffset := if bytes.getD (colonIdx + 1) 0 = 32 then 1 else 0
    let key ← utf8Decode (bytes.take colonIdx)
    let value ← utf8Decode (bytes.drop (colonIdx + 1 + whitespaceOffset))
    some (key, value)
  else none

/-- The loop of `HttpRequest::extract_headers`, with explicit fuel: every
iteration that recurses drops `i + 2 ≥ 2` bytes, so `bytes.length + 1`
units of fuel are never exhausted. -/

def extract_headers_go : Nat → Headers → List Nat → Option Headers
  | 0, _, _ => none
  | fuel + 1, hs, bytes =>
    match findSub CRLF bytes with
    | none => do
      -- loop exits; the remainder is parsed as the final header line
      let kv ← get_header_key_and_value bytes
      hs.add_key_value kv.1 kv.2
    | some i => do
      let kv ← get_header_key_and_value (bytes.take i)
      let hs' ← hs.add_key_value kv.1 kv.2
      extract_headers_go fuel hs' (bytes.drop (i + 2))

/-- `HttpRequest::extract_headers`. -/

def extract_headers (bytes : List Nat) : Option Headers :=
  extract_headers_go (bytes.length + 1) Headers.new bytes

/-- A parsed request (`HttpRequest<'a>`); borrowed string slices become
character lists. -/

structure HttpRequest where
  method : HttpMethod
  uri : List Char
  version : HttpVersion
  headers : Headers
  body : List Char

/-- `HttpRequest::from_bytes`, in the source's evaluation order; any
intermediate panic makes the whole parse `none`. -/

def from_bytes (bytes : List Nat) : Option HttpRequest := do
  let request_line ← get_request_line bytes
  let http_method ← extract_http_method request_line
  let http_version ← extract_http_version request_line
  let uri ← extract_request_uri request_line
  let header_bytes ← get_headers bytes
  let headers ← extract_headers header_bytes
  let body ← get_body bytes
  some { method := http_method, uri := uri, version := http_version,
         headers := headers, body := body }

/-! ## Response builder & serializer (`response.rs`) -/

inductive HttpStatus where
  | Ok | Created | NoContent | BadRequest | Unauthorized | Forbidden
  | NotFound | InternalServerError | BadGateway | ServiceUnavailable
  deriving DecidableEq, Repr

/-- `impl From<HttpStatus> for u16`. -/

def statusCode : HttpStatus → Nat
  | .Ok => 200
  | .Created => 201
  | .NoContent => 204
  | .BadRequest => 400
  | .Unauthorized => 401
  | .Forbidden => 403
  | .NotFound => 404
  | .InternalServerError => 500
  | .BadGateway => 502
  | .ServiceUnavailable => 503

/-- `impl From<HttpStatus> for &'static str`. -/

def statusReason : HttpStatus → String
  | .Ok => "OK"
  | .Created => "Created"
  | .NoContent => "No Content"
  | .BadRequest => "Bad Request"
  | .Unauthorized => "Unauthorized"
  | .Forbidden => "Forbidden"
  | .NotFound => "Not Found"
  | .InternalServerError => "Internal Server Error"
  | .BadGateway => "Bad Gateway"
  | .ServiceUnavailable => "Service Unavailable"

/-- `impl From<HttpVersion> for &'static str`. -/

def versionString : HttpVersion → String
  | .OnePointOne => "HTTP/1.1"

/-- A built response.  The source's header collection is a `HashMap` with
unspecified iteration order; the model fixes one iteration order as a list
of pairs.  Serialization emits the buffer as text, so the byte buffer is
modelled as a `String`. -/

structure HttpResponse where
  status : HttpStatus
  protocal : HttpVersion
  headers : Option (List (String × String))
  body : Option String

structure HttpResponseBuilder where
  status : HttpStatus
  protocal : Option HttpVersion
  headers : Option (List (String × String))
  body : Option String

def HttpResponseBuilder.new (status : HttpStatus) : HttpResponseBuilder :=
  { status := status, protocal := none, headers := none, body := none }

def HttpResponseBuilder.ok : HttpResponseBuilder := .new .Ok

def HttpResponseBuilder.not_found : HttpResponseBuilder := .new .NotFound

/-- `HttpResponseBuilder::body` (named `withBody` here because the field
already takes the source's name). -/

def HttpResponseBuilder.withBody (b : HttpResponseBuilder) (s : String) : HttpResponseBuilder :=
  { b with body := some s }

/-- `HttpResponseBuilder::headers` (named `withHeaders`, see `withBody`). -/

def HttpResponseBuilder.withHeaders (b : HttpResponseBuilder) (hs : List (String × String)) :
    HttpResponseBuilder :=
  { b with headers := some hs }

/-- `HttpResponseBuilder::build`: the protocol defaults to HTTP/1.1. -/

def HttpResponseBuilder.build (b : HttpResponseBuilder) : HttpResponse :=
  { status := b.status, protocal := b.protocal.getD .OnePointOne,
    headers := b.headers, body := b.body }

/-- `HttpResponse::serialize`: the sequence of `write!` calls appending to
the caller's buffer. -/

def HttpResponse.serialize (r : HttpResponse) (buffer : String) : String :=
  let buffer := buffer ++ versionString r.protocal ++ " " ++
    (Nat.repr (statusCode r.status) ++ " " ++ statusReason r.status) ++ "\r\n"
  let buffer :=
    match r.headers with
    | some hs => hs.foldl (fun acc kv => acc ++ kv.1 ++ ": " ++ kv.2 ++ "\r\n") buffer
    | none => buffer
  let buffer := buffer ++ "\r\n"
  match r.body with
  | some b => buffer ++ b
  | none => buffer

/-! ## Middleware / router dispatch (`app.rs` lines 228-271)

`HoochApp::handle_stream` after the read/parse prologue: run the middleware
chain in order, short-circuiting on demand, then try routes in order.  The
async layer awaits each middleware/handler before the next step, so the
dispatch is sequential function application; the peer address is opaque. -/

def SocketAddr : Type := Nat

inductive Middleware where
  | Continue (req : HttpRequest)
  | ShortCircuit (resp : HttpResponse)

def MiddlewareFn : Type := HttpRequest → SocketAddr → Middleware

def RouterFn : Type := HttpRequest → Params → HttpResponse

structure Route where
  fut : RouterFn
  method : HttpMethod
  path : List Char

/-- The middleware `for` loop: thread the (possibly replaced) request, or
stop at the first `ShortCircuit`. -/

def runMiddleware : List MiddlewareFn → HttpRequest → SocketAddr →
    HttpRequest ⊕ HttpResponse
  | [], req, _ => .inl req
  | mid :: rest, req, addr =>
    match mid req addr with
    | .Continue r => runMiddleware rest r addr
    | .ShortCircuit resp => .inr resp

/-- The route `for` loop: first route whose pattern matches *and* whose
method equals the request's method wins; otherwise 404. -/

def runRoutes : List Route → HttpRequest → HttpResponse
  | [], _ => HttpResponseBuilder.not_found.build
  | route :: rest, req =>
    match is_match req.uri route.path with
    | some param =>
      if route.method = req.method then route.fut req param
      else runRoutes rest req
    | none => runRoutes rest req

/-- The dispatch portion of `HoochApp::handle_stream`: middleware chain,
then routing; the returned response is what `handle_http_response`
serializes and writes exactly once. -/

def handle_stream (middleware_fns : List MiddlewareFn) (routes : List Route)
    (req : HttpRequest) (addr : SocketAddr) : HttpResponse :=
  match runMiddleware middleware_fns req addr with
  | .inl req' => runRoutes routes req'
  | .inr resp => resp

/-! ## Serializer shape (spec-side descriptions used by the theorems) -/

/-- One emitted header line. -/

def headerLine (kv : String × String) : String := kv.1 ++ ": " ++ kv.2 ++ "\r\n"

/-- Concatenation of a list of strings. -/

def strConcat : List String → String
  | [] => ""
  | s :: t => s ++ strConcat t

/-- The status line `serialize` writes. -/

def statusLineOf (r : HttpResponse) : String :=
  versionString r.protocal ++ " " ++
    (Nat.repr (statusCode r.status) ++ " " ++ statusReason r.status) ++ "\r\n"

/-- The header block `serialize` writes (one line per stored header, in the
model's fixed iteration order; the source iterates a `HashMap`, so the order
is unspecified there). -/

def headerBlockOf (r : HttpResponse) : String :=
  match r.headers with
  | some hs => strConcat (hs.map headerLine)
  | none => ""

/-- The body bytes `serialize` appends verbatim (empty when absent). -/

def bodyOf (r : HttpResponse) : String := r.body.getD ""

/-- A header store whose count has reached the arrays' capacity. -/

def headersFull : Headers :=
  { keys := fun _ => none, values := fun _ => none, num := MAX_NUM_HEADERS }

/-- Concrete pieces for the C9 witness: the chain
`[Continue, ShortCircuit(404), Continue]` with one registered route. -/

def req0 : HttpRequest :=
  { method := .GET, uri := "/x".toList, version := .OnePointOne,
    headers := Headers.new, body := [] }

def resp404 : HttpResponse := HttpResponseBuilder.not_found.build

def mwCont : MiddlewareFn := fun r _ => .Continue r

def mwSC : MiddlewareFn := fun _ _ => .ShortCircuit resp404

def routeOk : Route :=
  { fut := fun _ _ => HttpResponseBuilder.ok.build, method := .GET, path := "/x".toList }

def addr0 : SocketAddr := (0 : Nat)

/-! ## C2 machinery: substitution instances of parameterized patterns -/

/-- One pattern segment: ((placeholder name, following literal run), the
capture value substituted for the placeholder). -/

abbrev ChainItem : Type := (List Char × List Char) × List Char

/-- The pattern `lit0 ++ {n₁}l₁ … {n_k}l_k` (tail after `lit0`). -/

def patOfChain : List ChainItem → List Char
  | [] => []
  | ((n, l), _) :: rest => '{' :: (n ++ '}' :: (l ++ patOfChain rest))

/-- The concrete path `lit0 ++ v₁l₁ … v_kl_k` (tail after `lit0`). -/

def uriOfChain : List ChainItem → List Char
  | [] => []
  | ((_, l), v) :: rest => v ++ (l ++ uriOfChain rest)

def buildPat (lit0 : List Char) (chain : List ChainItem) : List Char :=
  lit0 ++ patOfChain chain

def buildUri (lit0 : List Char) (chain : List ChainItem) : List Char :=
  lit0 ++ uriOfChain chain

/-- The expected (name, value) capture list, in declaration order. -/

def chainPairs (chain : List ChainItem) : List (List Char × List Char) :=
  chain.map fun sv => (sv.1.1, sv.2)

/-- The path segment the matcher should build for those captures. -/

def segFromList (l : List (List Char × List Char)) : Segment :=
  l.foldl (fun s kv => s.insert_key_value kv.1 (some kv.2)) Segment.new

/-- Well-formedness of a substitution instance: no braces in names, no `'{'`
or `'?'` in literal runs, no `'?'` in values, each value free of the first
character of the literal run that follows it (the greedy-capture delimiter),
and nonempty literal runs between consecutive placeholders. -/

def goodChain : List ChainItem → Bool
  | [] => true
  | ((n, l), v) :: rest =>
    !n.contains '{' && !n.contains '}' && !l.contains '{' && !l.contains '?' &&
    !v.contains '?' &&
    (match l.head? with
     | some c => !v.contains c
     | none => true) &&
    (rest.isEmpty || !l.isEmpty) &&
    goodChain rest

/-- The rest of `is_match` after entering the loop at some position. -/

def matchTail (u p : List Char) (zs : List (Nat × Char)) (st : MState) : Option Params :=
  match loopGo u p zs st with
  | none => none
  | some st' => finishMatch u p st'

/-! ## Theorems -/

lemma foldl_headerLine (hs : List (String × String)) (b : String) :
    hs.foldl (fun acc kv => acc ++ kv.1 ++ ": " ++ kv.2 ++ "\r\n") b =
    b ++ strConcat (hs.map headerLine) := by
  induction hs generalizing b with
  | nil => simp [strConcat]
  | cons kv t ih =>
    rw [List.foldl_cons, ih, List.map_cons, strConcat]
    simp [headerLine, String.append_assoc]

/-- C6: serialization emits exactly the status line
`"<version> <code> <reason>\r\n"`, then one `"<key>: <value>\r\n"` line per
stored header in iteration order, then a blank `"\r\n"`, then the body bytes
verbatim with nothing appended; in particular an OK response with body
`"hi"` and no headers serializes to exactly `"HTTP/1.1 200 OK\r\n\r\nhi"`. -/
theorem claim_C6_serialize_exact :
    (∀ (r : HttpResponse) (buffer : String),
      r.serialize buffer = buffer ++ statusLineOf r ++ headerBlockOf r ++ "\r\n" ++ bodyOf r) ∧
    (HttpResponseBuilder.ok.withBody "hi").build.serialize "" = "HTTP/1.1 200 OK\r\n\r\nhi" := by
  constructor
  · intro r buffer
    unfold HttpResponse.serialize statusLineOf headerBlockOf bodyOf
    cases hh : r.headers <;> cases hb : r.body <;>
      simp only [foldl_headerLine] <;> simp [String.append_assoc]
  · rfl

/-- C8: adding a pair to a `Headers` store appends it in insertion order
while `count < 1000`; but at `count = 1000` the source performs an
out-of-bounds array write and aborts (modelled `none`) instead of returning
the `CapacityExceeded` error the specification requires — the second half of
the claim fails on the code. -/
theorem claim_C8_capacity_abort :
    (∀ k v : List Char, headersFull.add_key_value k v = none) ∧
    (Headers.new.add_key_value "Host".toList "h".toList).map Headers.entries =
      some [(some "Host".toList, some "h".toList)] := by
  constructor
  · intro k v
    simp [Headers.add_key_value, headersFull]
  · rfl

lemma posOf_append_self (b : Nat) (key : List Nat) (h : ¬ b ∈ key) :
    posOf b (key ++ [b]) = some key.length := by
  induction key with
  | nil => simp [posOf]
  | cons x t ih =>
    have hx : ¬ x = b := fun e => h (by simp [e])
    have ht : ¬ b ∈ t := fun hm => h (List.mem_cons_of_mem _ hm)
    simp [posOf, hx, ih ht]

/-- C10: a header line whose final byte is the colon never produces the
pair `(key, "")`: `get_header_key_and_value` unconditionally reads
`bytes[colon_idx + 1]`, which is out of bounds there, so the operation
fails (Rust aborts, modelled `none`). -/
theorem claim_C10_colon_last (key : List Nat) (h : ¬ 58 ∈ key) :
    get_header_key_and_value (key ++ [58]) = none := by
  unfold get_header_key_and_value
  rw [posOf_append_self 58 key h]
  simp

/-- Witness for C10 at the concrete header line `"Key:"`. -/
theorem claim_C10_witness : get_header_key_and_value (strBytes "Key:") = none :=
  claim_C10_colon_last (strBytes "Key") (by decide)

/-- C3: the byte sequence `"GET /a/b?x=1&y HTTP/1.1\r\nHost: h\r\n\r\n"`
parses to method GET, URI `"/a/b?x=1&y"`, version 1.1, exactly the single
header pair `("Host", "h")`, and an empty body. -/
theorem claim_C3_roundtrip :
    (from_bytes (strBytes "GET /a/b?x=1&y HTTP/1.1\r\nHost: h\r\n\r\n")).map
      (fun r => (r.method, r.uri, r.version, r.headers.entries, r.body)) =
    some (HttpMethod.GET, "/a/b?x=1&y".toList, HttpVersion.OnePointOne,
          [(some "Host".toList, some "h".toList)], ([] : List Char)) := by
  rfl

/-- C4 (failing input): the parse of `"FOO / HTTP/1.1\r\nHost: h\r\n\r\n"`
hits `panic!("Unknown HTTP method")` — the source returns no recoverable
`MalformedRequest` value, it aborts the task (modelled `none`). -/
theorem claim_C4_unknown_method_aborts :
    from_bytes (strBytes "FOO / HTTP/1.1\r\nHost: h\r\n\r\n") = none := by
  rfl

/-- C7 (failing input): a well-formed request with an empty header block.
`get_headers` searches for CRLFCRLF only *after* the request line's CRLF,
misses the overlapping `\r\n\r\n`, and its `unwrap` aborts — parsing does
not succeed with zero headers as the specification requires. -/
theorem claim_C7_empty_header_block_aborts :
    from_bytes (strBytes "GET / HTTP/1.1\r\n\r\nhi") = none := by
  rfl

/-- C1 (counterexample): the URI `"/a?x=1"` does not match the pattern
`"/b"`, yet `is_match` returns `Some` — the final suffix comparison fails
but the accumulated `params` (already holding the parsed query captures)
is returned instead of `None`. -/
theorem claim_C1_cx_failed_match_returns_some :
    matchEntries (is_match "/a?x=1".toList "/b".toList) =
      some ([], [(some "x".toList, some "1".toList)]) := by
  rfl

/-- C2 (counterexample): against pattern `"/{id}/123"`, the path
`"/foo/124"` differs from a substitution instance in exactly one literal
character (`'4'` vs `'3'`), yet `is_match` returns a match with the capture
`(id, "foo")` retained: a differing literal *after* the last placeholder is
only seen by the final suffix comparison, whose failure path returns the
accumulated params. -/
theorem claim_C2_cx_trailing_literal_mismatch_matches :
    matchEntries (is_match "/foo/124".toList "/{id}/123".toList) =
      some ([(some "id".toList, some "foo".toList)], []) := by
  rfl

/-- C5 (counterexample): for a URI with two `'?'` characters the query
captures come from the substring after the *last* `'?'`
(`self.0.split('?').last()`), not the first as claimed: `"/p?a=1?b=2"`
yields the single entry `(b, 2)`, not `(a, "1?b=2")`. -/
theorem claim_C5_cx_query_from_last_questionmark :
    matchEntries (is_match "/p?a=1?b=2".toList "/p".toList) =
      some ([], [(some "b".toList, some "2".toList)]) := by
  rfl

lemma finishMatch_query (u p : List Char) (st : MState) (q : Params)
    (hq : u.contains '?' = true) (h : finishMatch u p st = some q) :
    q.query_fragment = parse_segment ((splitChar '?' u).getLastD []) := by
  unfold finishMatch at h
  rw [hq] at h
  simp only [if_true, Option.getD_some] at h
  by_cases hnum :
      (if st.endWithValue then
        st.seg.insert_value (some (slice u st.uriIdx (firstIdxOrLen '?' u)))
      else st.seg).num > 0 <;>
    simp only [hnum, if_pos, if_neg, if_true, if_false, not_false_iff] at h <;>
    split at h <;>
    first
      | (injection h with h'; rw [← h'])
      | (split at h <;> (injection h with h'; rw [← h']))
  all_goals rfl

/-- C5 (amended): for every concrete URI containing `'?'`, whenever
`is_match` returns a result, its query captures are exactly
`parse_segment` of the substring after the **last** `'?'`; and
`parse_segment` splits on `'&'` and then each fragment at the first `'='`,
so `"a=1&b&&c=3"` yields exactly the four entries
`(a,1), (b,absent), ("",absent), (c,3)` in order, duplicates kept. -/
theorem claim_C5_query_parsing :
    (∀ (u p : List Char) (q : Params), u.contains '?' = true →
      is_match u p = some q →
      q.query_fragment = parse_segment ((splitChar '?' u).getLastD [])) ∧
    (parse_segment "a=1&b&&c=3".toList).entries =
      [(some "a".toList, some "1".toList), (some "b".toList, none),
       (some ([] : List Char), none), (some "c".toList, some "3".toList)] := by
  constructor
  · intro u p q hq hm
    unfold is_match at hm
    cases hloop : loopGo u p (enumFrom 0 p) MState.init with
    | none => rw [hloop] at hm; cases hm
    | some st =>
      rw [hloop] at hm
      exact finishMatch_query u p st q hq hm
  · rfl

/-- Witness for C5's universal part at the URI `"/p?x=2"`. -/
theorem claim_C5_witness :
    ((is_match "/p?x=2".toList "/p".toList).getD Params.new).query_fragment =
      parse_segment "x=2".toList :=
  claim_C5_query_parsing.1 "/p?x=2".toList "/p".toList
    ((is_match "/p?x=2".toList "/p".toList).getD Params.new) (by rfl) (by rfl)

lemma runMiddleware_append (pre rest : List MiddlewareFn) (req : HttpRequest)
    (addr : SocketAddr) :
    runMiddleware (pre ++ rest) req addr =
      match runMiddleware pre req addr with
      | .inl r => runMiddleware rest r addr
      | .inr resp => .inr resp := by
  induction pre generalizing req with
  | nil => rfl
  | cons m t ih =>
    have h1 : runMiddleware ((m :: t) ++ rest) req addr =
        match m req addr with
        | .Continue r => runMiddleware (t ++ rest) r addr
        | .ShortCircuit resp => .inr resp := rfl
    have h2 : runMiddleware (m :: t) req addr =
        match m req addr with
        | .Continue r => runMiddleware t r addr
        | .ShortCircuit resp => .inr resp := rfl
    rw [h1, h2]
    cases m req addr with
    | Continue r => exact ih r
    | ShortCircuit resp => rfl

/-- C9: if the middleware at position `i` short-circuits, no later
middleware is invoked, no route matching and no handler runs, and the
response handed to the serializer is exactly the short-circuited one: the
result is independent of both the remaining chain `post` and the whole
route table. -/
theorem claim_C9_short_circuit (pre post : List MiddlewareFn) (m : MiddlewareFn)
    (routes : List Route) (req req' : HttpRequest) (addr : SocketAddr)
    (resp : HttpResponse)
    (hpre : runMiddleware pre req addr = .inl req')
    (hm : m req' addr = .ShortCircuit resp) :
    handle_stream (pre ++ m :: post) routes req addr = resp := by
  unfold handle_stream
  rw [runMiddleware_append, hpre]
  show (match runMiddleware (m :: post) req' addr with
        | .inl r => runRoutes routes r
        | .inr resp => resp) = resp
  unfold runMiddleware
  rw [hm]

/-- Witness for C9: with the chain `[Continue, ShortCircuit(404), Continue]`
the emitted response is the short-circuited 404, whatever the route table
holds. -/
theorem claim_C9_witness :
    handle_stream [mwCont, mwSC, mwCont] [routeOk] req0 addr0 = resp404 :=
  claim_C9_short_circuit [mwCont] [mwCont] mwSC [routeOk] req0 req0 addr0 resp404
    rfl rfl

lemma contains_cons_false {c x : Char} {t : List Char}
    (h : (x :: t).contains c = false) : ¬ x = c ∧ t.contains c = false := by
  simp only [List.contains_cons, Bool.or_eq_false_iff, beq_eq_false_iff_ne, ne_eq] at h
  exact ⟨fun e => h.1 e.symm, h.2⟩

/-- Processing a run of literal pattern characters (no `'{'`) outside the
bracket and record modes advances both cursors in lockstep and changes
nothing else. -/
lemma loopGo_literal (u p : List Char) :
    ∀ (l : List Char), l.contains '{' = false →
    ∀ (i : Nat) (st : MState) (ys : List (Nat × Char)),
      st.recordUriChar = false → st.bracketHit = false →
      loopGo u p (enumFrom i l ++ ys) st =
      loopGo u p ys
        { st with uriIdx := st.uriIdx + l.length, cmpIdx := st.cmpIdx + l.length } := by
  intro l
  induction l with
  | nil =>
    intro _ i st ys _ _
    simp [enumFrom]
  | cons c t ih =>
    intro hl i st ys hrec hbr
    obtain ⟨hc, ht⟩ := contains_cons_false hl
    rw [enumFrom, List.cons_append, loopGo]
    have hstep : loopStep u p (i, c) st =
        .cont { st with uriIdx := st.uriIdx + 1, cmpIdx := st.cmpIdx + 1 } := by
      unfold loopStep afterRecord
      simp [hrec, hc, hbr]
    rw [hstep]
    show loopGo u p (enumFrom (i + 1) t ++ ys) _ = _
    rw [ih ht (i + 1) { st with uriIdx := st.uriIdx + 1, cmpIdx := st.cmpIdx + 1 } ys hrec hbr]
    simp [Nat.add_assoc, Nat.add_comm, Nat.add_left_comm]

/-- C1 (amended): for URIs without a query suffix matched against nonempty
placeholder-free patterns, `is_match` returns `Some` (with empty captures)
exactly when the two texts are equal and `None` otherwise; but when the URI
contains `'?'` (or path captures were recorded before a final-suffix
mismatch) a failed match returns `Some` with those partial path and query
captures retained instead of `None`, as the concrete conjunct shows. -/
theorem claim_C1_match_result :
    (∀ (u p : List Char), u.contains '?' = false → p.contains '{' = false → p ≠ [] →
      is_match u p = if u = p then some Params.new else none) ∧
    matchEntries (is_match "/foo/124?q=1".toList "/{id}/123".toList) =
      some ([(some "id".toList, some "foo".toList)], [(some "q".toList, some "1".toList)]) := by
  constructor
  · intro u p hq hp hne
    unfold is_match
    rw [show enumFrom 0 p = enumFrom 0 p ++ [] from (List.append_nil _).symm,
        loopGo_literal u p p hp 0 MState.init [] rfl rfl]
    show finishMatch u p
        { MState.init with uriIdx := MState.init.uriIdx + p.length,
                           cmpIdx := MState.init.cmpIdx + p.length } = _
    have h1 : ¬ ((0 : Nat) ≥ p.length) := by
      have := List.length_pos.mpr hne
      omega
    unfold finishMatch
    have hqm : ¬ ('?' ∈ u) := by simpa using hq
    by_cases he : u = p
    · subst he
      simp [MState.init, Segment.new, h1, Params.new, hqm]
    · simp [MState.init, Segment.new, h1, he, hqm]
  · rfl

/-- Witness for C1's universal part: a literal-only pattern matching an
equal URI yields empty params. -/
theorem claim_C1_witness :
    is_match "/ok".toList "/ok".toList = some Params.new := by
  have h := claim_C1_match_result.1 "/ok".toList "/ok".toList (by rfl) (by rfl)
    (by intro e; cases e)
  simpa using h

lemma enumFrom_append {α : Type} (b : List α) :
    ∀ (a : List α) (i : Nat),
      enumFrom i (a ++ b) = enumFrom i a ++ enumFrom (i + a.length) b := by
  intro a
  induction a with
  | nil => intro i; simp [enumFrom]
  | cons x t ih =>
    intro i
    rw [List.cons_append, enumFrom, ih (i + 1), enumFrom,
        show i + 1 + t.length = i + (x :: t).length from by simp; omega]
    rfl

lemma drop_of_drop_eq {α : Type} {u : List α} {a : Nat} {w z : List α}
    (h : u.drop a = w ++ z) : u.drop (a + w.length) = z := by
  rw [← List.drop_drop, h, List.drop_left]

lemma slice_of_drop_eq {u : List Char} {a : Nat} {w z : List Char}
    (h : u.drop a = w ++ z) : slice u a (a + w.length) = w := by
  unfold slice
  rw [h, Nat.add_sub_cancel_left, List.take_left]

lemma firstIdxOrLen_eq_length (c : Char) (u : List Char) (h : u.contains c = false) :
    firstIdxOrLen c u = u.length := by
  induction u with
  | nil => rfl
  | cons x t ih =>
    obtain ⟨hx, ht⟩ := contains_cons_false h
    simp [firstIdxOrLen, hx, ih ht]

lemma scanLen_self (c : Char) (w : List Char) : scanLen c (c :: w) = 0 := by
  cases w <;> simp [scanLen]

lemma scanLen_append (c : Char) (v w : List Char) (h : v.contains c = false) :
    scanLen c (v ++ (c :: w)) = v.length := by
  induction v with
  | nil => simpa using scanLen_self c w
  | cons a v' ih =>
    obtain ⟨ha, hv⟩ := contains_cons_false h
    cases v' with
    | nil => simp [scanLen, ha, scanLen_self]
    | cons b v'' =>
      have hrec := ih hv
      simp only [List.cons_append] at hrec ⊢
      simp [scanLen, ha, hrec]

lemma entries_insert (s : Segment) (k v : List Char) :
    (s.insert_key_value k (some v)).entries = s.entries ++ [(some k, some v)] := by
  unfold Segment.entries Segment.insert_key_value
  rw [List.range_succ, List.map_append]
  congr 1
  · apply List.map_congr_left
    intro i hi
    have hne : i ≠ s.num := Nat.ne_of_lt (List.mem_range.mp hi)
    simp [updArr, hne]
  · simp [updArr]

lemma foldl_insert_entries :
    ∀ (l : List (List Char × List Char)) (s : Segment),
      (l.foldl (fun s kv => s.insert_key_value kv.1 (some kv.2)) s).entries =
        s.entries ++ l.map (fun kv => (some kv.1, some kv.2)) := by
  intro l
  induction l with
  | nil => intro s; simp
  | cons kv t ih =>
    intro s
    rw [List.foldl_cons, ih, entries_insert]
    simp

lemma foldl_insert_num :
    ∀ (l : List (List Char × List Char)) (s : Segment),
      (l.foldl (fun s kv => s.insert_key_value kv.1 (some kv.2)) s).num =
        s.num + l.length := by
  intro l
  induction l with
  | nil => intro s; simp
  | cons kv t ih =>
    intro s
    rw [List.foldl_cons, ih]
    simp [Segment.insert_key_value]
    omega

lemma entries_segFromList (l : List (List Char × List Char)) :
    (segFromList l).entries = l.map (fun kv => (some kv.1, some kv.2)) := by
  unfold segFromList
  rw [foldl_insert_entries]
  simp [Segment.entries, Segment.new]

lemma num_segFromList (l : List (List Char × List Char)) :
    (segFromList l).num = l.length := by
  unfold segFromList
  rw [foldl_insert_num]
  simp [Segment.new]

lemma segFromList_snoc (l : List (List Char × List Char)) (k v : List Char) :
    segFromList (l ++ [(k, v)]) = (segFromList l).insert_key_value k (some v) := by
  simp [segFromList, List.foldl_append]

lemma insert_key_then_value (s : Segment) (k : List Char) (v : Option (List Char)) :
    (s.insert_key k).insert_value v = s.insert_key_value k v := rfl

/-- Processing the name characters of a placeholder while `bracket_hit` is
set only advances the pattern cursor. -/
lemma loopGo_bracketRun (u p : List Char) :
    ∀ (m : List Char), m.contains '{' = false → m.contains '}' = false →
    ∀ (i : Nat) (st : MState) (ys : List (Nat × Char)),
      st.recordUriChar = false → st.bracketHit = true →
      loopGo u p (enumFrom i m ++ ys) st =
      loopGo u p ys { st with cmpIdx := st.cmpIdx + m.length } := by
  intro m
  induction m with
  | nil =>
    intro _ _ i st ys _ _
    simp [enumFrom]
  | cons c t ih =>
    intro h1 h2 i st ys hrec hbr
    obtain ⟨hc1, ht1⟩ := contains_cons_false h1
    obtain ⟨hc2, ht2⟩ := contains_cons_false h2
    rw [enumFrom, List.cons_append, loopGo]
    have hstep : loopStep u p (i, c) st =
        .cont { st with cmpIdx := st.cmpIdx + 1 } := by
      unfold loopStep afterRecord
      simp [hrec, hbr, hc1, hc2]
    rw [hstep]
    show loopGo u p (enumFrom (i + 1) t ++ ys) _ = _
    rw [ih ht1 ht2 (i + 1) { st with cmpIdx := st.cmpIdx + 1 } ys hrec hbr]
    simp [Nat.add_assoc, Nat.add_comm, Nat.add_left_comm]

/-- Processing `'{' ++ name ++ '}'` from a state whose accumulated literal
spans agree: the literal check passes, the name is recorded as the next
key, and the state enters value-capture mode. -/
lemma loopGo_placeholder (u p n : List Char)
    (hn1 : n.contains '{' = false) (hn2 : n.contains '}' = false) :
    ∀ (st : MState) (ys : List (Nat × Char)) (R : List Char),
      st.recordUriChar = false → st.bracketHit = false →
      slice p st.cmpStart st.cmpIdx = slice u st.uriStart st.uriIdx →
      p.drop st.cmpIdx = '{' :: (n ++ '}' :: R) →
      loopGo u p (enumFrom st.cmpIdx ('{' :: (n ++ ['}'])) ++ ys) st =
      loopGo u p ys
        { st with bracketHit := false, bracketHitIdx := st.cmpIdx,
                  startIdx := st.cmpIdx + 1 + n.length + 1,
                  recordUriChar := true, endWithValue := true,
                  seg := st.seg.insert_key n,
                  cmpStart := st.cmpIdx + 1 + n.length,
                  cmpIdx := st.cmpIdx + 1 + n.length + 1 } := by
  intro st ys R hrec hbr hsl hpd
  have hkey : slice p (st.cmpIdx + 1) (st.cmpIdx + 1 + n.length) = n := by
    have hd : p.drop (st.cmpIdx + 1) = n ++ ('}' :: R) := by
      have h1 := congrArg (List.drop 1) hpd
      rw [List.drop_drop] at h1
      simpa using h1
    exact slice_of_drop_eq hd
  rw [enumFrom, List.cons_append, loopGo]
  have hstep : loopStep u p (st.cmpIdx, '{') st =
      .cont { st with bracketHit := true, bracketHitIdx := st.cmpIdx,
                      cmpIdx := st.cmpIdx + 1 } := by
    unfold loopStep afterRecord
    simp [hrec, hsl]
  rw [hstep]
  show loopGo u p (enumFrom (st.cmpIdx + 1) (n ++ ['}']) ++ ys) _ = _
  rw [enumFrom_append, List.append_assoc,
      loopGo_bracketRun u p n hn1 hn2 (st.cmpIdx + 1)
        { st with bracketHit := true, bracketHitIdx := st.cmpIdx,
                  cmpIdx := st.cmpIdx + 1 } _ hrec rfl]
  rw [enumFrom, enumFrom, List.cons_append, List.nil_append, loopGo]
  have hstep2 : loopStep u p (st.cmpIdx + 1 + n.length, '}')
      { st with bracketHit := true, bracketHitIdx := st.cmpIdx,
                cmpIdx := st.cmpIdx + 1 + n.length } =
      .cont { st with bracketHit := false, bracketHitIdx := st.cmpIdx,
                      startIdx := st.cmpIdx + 1 + n.length + 1,
                      recordUriChar := true, endWithValue := true,
                      seg := st.seg.insert_key n,
                      cmpStart := st.cmpIdx + 1 + n.length,
                      cmpIdx := st.cmpIdx + 1 + n.length + 1 } := by
    unfold loopStep afterRecord
    simp [hrec, hkey, (by decide : ¬ ('}' : Char) = '{')]
  rw [hstep2]

/-- Processing the first character after a placeholder's `'}'` while in
value-capture mode: the concrete URI is scanned greedily up to the first
occurrence of that character, the span becomes the capture value, and both
cursors restart after it. -/
lemma loopStep_capture (u p : List Char) (c : Char) (v w : List Char)
    (hcv : v.contains c = false) (hc : ¬ c = '{') :
    ∀ (i : Nat) (st : MState) (ys : List (Nat × Char)),
      st.recordUriChar = true → st.bracketHit = false →
      u.drop st.uriIdx = v ++ (c :: w) →
      loopGo u p ((i, c) :: ys) st =
      loopGo u p ys
        { st with endWithValue := false, recordUriChar := false,
                  seg := st.seg.insert_value (some v),
                  uriIdx := st.uriIdx + v.length + 1,
                  uriStart := st.uriIdx + v.length,
                  cmpIdx := st.cmpIdx + 1,
                  cmpStart := st.cmpIdx } := by
  intro i st ys hrec hbr hdrop
  have hval : slice u st.uriIdx (st.uriIdx + v.length) = v := slice_of_drop_eq hdrop
  have hscan : scanLen c (v ++ (c :: w)) = v.length := scanLen_append c v w hcv
  rw [loopGo]
  have hstep : loopStep u p (i, c) st =
      .cont { st with endWithValue := false, recordUriChar := false,
                      seg := st.seg.insert_value (some v),
                      uriIdx := st.uriIdx + v.length + 1,
                      uriStart := st.uriIdx + v.length,
                      cmpIdx := st.cmpIdx + 1,
                      cmpStart := st.cmpIdx } := by
    simp only [loopStep, hrec, if_true, doRecord]
    rw [hdrop]
    rcases hvw : v ++ (c :: w) with _ | ⟨x, xs⟩
    · exact absurd hvw (by simp)
    · simp only []
      rw [← hvw, hscan, hval]
      simp only [afterRecord, hc, if_false, hbr]
      rfl
  rw [hstep]

lemma is_match_eq_matchTail (u p : List Char) :
    is_match u p = matchTail u p (enumFrom 0 p) MState.init := rfl

lemma matchTail_congr {u p : List Char} {zs zs' : List (Nat × Char)} {st st' : MState}
    (h : loopGo u p zs st = loopGo u p zs' st') :
    matchTail u p zs st = matchTail u p zs' st' := by
  unfold matchTail
  rw [h]

/-- Main induction for C2: from a state aligned at a segment boundary
(both cursors having just crossed a common literal span `L`, the unread
pattern being exactly the remaining placeholder segments, the unread URI
being exactly the remaining substitution text), the matcher consumes the
remaining segments and produces exactly the remaining captures. -/
lemma chainRun (u p : List Char) (hq : u.contains '?' = false) :
    ∀ (chain : List ChainItem) (acc : List (List Char × List Char))
      (st : MState) (L : List Char),
      goodChain chain = true →
      st.recordUriChar = false → st.bracketHit = false → st.endWithValue = false →
      st.uriIdx = st.uriStart + L.length →
      u.drop st.uriStart = L ++ u.drop st.uriIdx →
      st.cmpIdx = st.cmpStart + L.length →
      p.drop st.cmpStart = L ++ p.drop st.cmpIdx →
      p.drop st.cmpIdx = patOfChain chain →
      st.cmpIdx + (patOfChain chain).length = p.length →
      u.drop st.uriIdx = uriOfChain chain →
      st.uriIdx + (uriOfChain chain).length = u.length →
      st.seg = segFromList acc →
      st.startIdx < p.length →
      matchTail u p (enumFrom st.cmpIdx (patOfChain chain)) st =
        some { path_segment := segFromList (acc ++ chainPairs chain),
               query_fragment := Segment.new } := by
  intro chain
  induction chain with
  | nil =>
    intro acc st L _ hrec hbr hewv hui hud hci hcd hpr hpl hur hul hseg hsi
    have hqm : ¬ ('?' ∈ u) := by simpa using hq
    have hdropEq : u.drop st.uriStart = p.drop st.cmpStart := by
      rw [hud, hcd]
      rw [show uriOfChain [] = ([] : List Char) from rfl] at hur
      rw [show patOfChain [] = ([] : List Char) from rfl] at hpr
      rw [hur, hpr]
    have hnsi : ¬ (st.startIdx ≥ p.length) := by omega
    show matchTail u p (enumFrom st.cmpIdx []) st = _
    rcases acc with _ | ⟨kv0, acc'⟩
    · simp only [segFromList, List.foldl_nil] at hseg
      simp [matchTail, enumFrom, loopGo, finishMatch, hqm, hewv, hseg, hnsi, hdropEq,
        Segment.new, chainPairs, Params.new, segFromList]
    · have hnum : 0 < (segFromList (kv0 :: acc')).num := by
        rw [num_segFromList]; simp
      simp [matchTail, enumFrom, loopGo, finishMatch, hqm, hewv, hseg, hnsi, hdropEq,
        hnum, chainPairs, Params.new]
  | cons item rest ih =>
    obtain ⟨⟨n, l⟩, v⟩ := item
    intro acc st L hgood hrec hbr hewv hui hud hci hcd hpr hpl hur hul hseg hsi
    simp only [goodChain, Bool.and_eq_true, Bool.not_eq_true'] at hgood
    obtain ⟨⟨⟨⟨⟨⟨⟨hn1, hn2⟩, hl1⟩, hl2⟩, hv1⟩, hmatch⟩, hlast⟩, hrest⟩ := hgood
    have hqm : ¬ ('?' ∈ u) := by simpa using hq
    have hsl : slice p st.cmpStart st.cmpIdx = slice u st.uriStart st.uriIdx := by
      have e1 : slice p st.cmpStart st.cmpIdx = L := by
        rw [hci]; exact slice_of_drop_eq hcd
      have e2 : slice u st.uriStart st.uriIdx = L := by
        rw [hui]; exact slice_of_drop_eq hud
      rw [e1, e2]
    cases l with
    | nil =>
      have hr0 : rest = [] := by simpa using hlast
      subst hr0
      have hfl : firstIdxOrLen '?' u = u.length := firstIdxOrLen_eq_length _ _ hq
      have hpd : p.drop st.cmpIdx = '{' :: (n ++ '}' :: ([] : List Char)) := by
        rw [hpr]; rfl
      have hul2 : st.uriIdx + v.length = u.length := by
        simp [uriOfChain] at hul; omega
      have hvv : slice u st.uriIdx (firstIdxOrLen '?' u) = v := by
        rw [hfl, ← hul2]
        apply slice_of_drop_eq (z := ([] : List Char))
        rw [hur]; simp [uriOfChain]
      have hge : st.cmpIdx + 1 + n.length + 1 ≥ p.length := by
        simp [patOfChain] at hpl; omega
      have hnum : ¬ (segFromList (acc ++ [(n, v)])).num = 0 := by
        rw [num_segFromList]; simp
      show matchTail u p (enumFrom st.cmpIdx (patOfChain [((n, []), v)])) st = _
      unfold matchTail
      rw [show patOfChain [((n, ([] : List Char)), v)] = '{' :: (n ++ ['}']) from rfl]
      rw [show enumFrom st.cmpIdx ('{' :: (n ++ ['}'])) =
            enumFrom st.cmpIdx ('{' :: (n ++ ['}'])) ++ [] from (List.append_nil _).symm]
      rw [loopGo_placeholder u p n hn1 hn2 st [] [] hrec hbr hsl hpd]
      rw [loopGo]
      show finishMatch u p _ = _
      unfold finishMatch
      simp [hqm, hvv, hseg, hge, hnum, insert_key_then_value, ← segFromList_snoc,
        chainPairs, Params.new]
    | cons c0 lt =>
      obtain ⟨hc0, hlt1⟩ := contains_cons_false hl1
      have hvc0 : v.contains c0 = false := by simpa using hmatch
      have hpd : p.drop st.cmpIdx = '{' :: (n ++ '}' :: (c0 :: (lt ++ patOfChain rest))) := by
        rw [hpr]; rfl
      have hpd' : p.drop st.cmpIdx =
          ('{' :: (n ++ ['}'])) ++ (c0 :: (lt ++ patOfChain rest)) := by
        rw [hpr]; simp [patOfChain]
      have hud2 : u.drop st.uriIdx = v ++ (c0 :: (lt ++ uriOfChain rest)) := by
        rw [hur]; rfl
      simp only [patOfChain, List.length_cons, List.length_append] at hpl
      simp only [uriOfChain, List.length_cons, List.length_append] at hul
      have d1 : u.drop (st.uriIdx + v.length) = (c0 :: lt) ++ uriOfChain rest :=
        drop_of_drop_eq hud2
      have d2 : u.drop (st.uriIdx + v.length + 1 + lt.length) = uriOfChain rest := by
        have h := drop_of_drop_eq d1
        rw [show st.uriIdx + v.length + 1 + lt.length =
              st.uriIdx + v.length + (c0 :: lt).length from by
              simp only [List.length_cons]; omega]
        exact h
      have e1 : p.drop (st.cmpIdx + 1 + n.length + 1) = (c0 :: lt) ++ patOfChain rest := by
        have h := drop_of_drop_eq hpd'
        rw [show st.cmpIdx + 1 + n.length + 1 =
              st.cmpIdx + ('{' :: (n ++ ['}'])).length from by
              simp only [List.length_cons, List.length_append, List.length_nil]; omega]
        exact h
      have e2 : p.drop (st.cmpIdx + 1 + n.length + 1 + 1 + lt.length) = patOfChain rest := by
        have h := drop_of_drop_eq e1
        rw [show st.cmpIdx + 1 + n.length + 1 + 1 + lt.length =
              st.cmpIdx + 1 + n.length + 1 + (c0 :: lt).length from by
              simp only [List.length_cons]; omega]
        exact h
      have h5 : st.uriIdx + v.length + 1 + lt.length =
          st.uriIdx + v.length + (lt.length + 1) := by omega
      have h6 : u.drop (st.uriIdx + v.length) =
          (c0 :: lt) ++ u.drop (st.uriIdx + v.length + 1 + lt.length) := by
        rw [d2, d1]
      have h7 : st.cmpIdx + 1 + n.length + 1 + 1 + lt.length =
          st.cmpIdx + 1 + n.length + 1 + (lt.length + 1) := by omega
      have h8 : p.drop (st.cmpIdx + 1 + n.length + 1) =
          (c0 :: lt) ++ p.drop (st.cmpIdx + 1 + n.length + 1 + 1 + lt.length) := by
        rw [e2, e1]
      have h10 : st.cmpIdx + 1 + n.length + 1 + 1 + lt.length +
          (patOfChain rest).length = p.length := by omega
      have h12 : st.uriIdx + v.length + 1 + lt.length +
          (uriOfChain rest).length = u.length := by omega
      have h13 : (st.seg.insert_key n).insert_value (some v) =
          segFromList (acc ++ [(n, v)]) := by
        rw [hseg, insert_key_then_value, ← segFromList_snoc]
      have h14 : st.cmpIdx + 1 + n.length + 1 < p.length := by omega
      have hsplit : enumFrom st.cmpIdx (patOfChain (((n, c0 :: lt), v) :: rest)) =
          enumFrom st.cmpIdx ('{' :: (n ++ ['}'])) ++
          ((st.cmpIdx + 1 + n.length + 1, c0) ::
            (enumFrom (st.cmpIdx + 1 + n.length + 1 + 1) lt ++
             enumFrom (st.cmpIdx + 1 + n.length + 1 + 1 + lt.length)
               (patOfChain rest))) := by
        rw [show patOfChain (((n, c0 :: lt), v) :: rest) =
              ('{' :: (n ++ ['}'])) ++ (c0 :: (lt ++ patOfChain rest)) from by
              simp [patOfChain]]
        rw [enumFrom_append,
            show st.cmpIdx + ('{' :: (n ++ ['}'])).length = st.cmpIdx + 1 + n.length + 1 from by
              simp only [List.length_cons, List.length_append, List.length_nil]; omega]
        rw [show enumFrom (st.cmpIdx + 1 + n.length + 1) (c0 :: (lt ++ patOfChain rest)) =
              (st.cmpIdx + 1 + n.length + 1, c0) ::
                enumFrom (st.cmpIdx + 1 + n.length + 1 + 1) (lt ++ patOfChain rest) from rfl]
        rw [enumFrom_append]
      show matchTail u p (enumFrom st.cmpIdx (patOfChain (((n, c0 :: lt), v) :: rest))) st = _
      rw [hsplit,
          show acc ++ chainPairs (((n, c0 :: lt), v) :: rest) =
            (acc ++ [(n, v)]) ++ chainPairs rest from by simp [chainPairs]]
      have hrun : loopGo u p
          (enumFrom st.cmpIdx ('{' :: (n ++ ['}'])) ++
            ((st.cmpIdx + 1 + n.length + 1, c0) ::
              (enumFrom (st.cmpIdx + 1 + n.length + 1 + 1) lt ++
               enumFrom (st.cmpIdx + 1 + n.length + 1 + 1 + lt.length)
                 (patOfChain rest)))) st =
          loopGo u p
            (enumFrom (st.cmpIdx + 1 + n.length + 1 + 1 + lt.length) (patOfChain rest))
            { startIdx := st.cmpIdx + 1 + n.length + 1,
              bracketHit := false,
              bracketHitIdx := st.cmpIdx,
              recordUriChar := false,
              endWithValue := false,
              uriIdx := st.uriIdx + v.length + 1 + lt.length,
              uriStart := st.uriIdx + v.length,
              cmpIdx := st.cmpIdx + 1 + n.length + 1 + 1 + lt.length,
              cmpStart := st.cmpIdx + 1 + n.length + 1,
              seg := (st.seg.insert_key n).insert_value (some v) } := by
        rw [loopGo_placeholder u p n hn1 hn2 st _ _ hrec hbr hsl hpd]
        rw [loopStep_capture u p c0 v (lt ++ uriOfChain rest) hvc0 hc0 _ _ _ (by rfl) (by rfl)
              (by exact hud2)]
        rw [loopGo_literal u p lt hlt1 _ _ _ (by rfl) (by rfl)]
      rw [matchTail_congr hrun]
      refine ih (acc ++ [(n, v)])
        { startIdx := st.cmpIdx + 1 + n.length + 1,
          bracketHit := false,
          bracketHitIdx := st.cmpIdx,
          recordUriChar := false,
          endWithValue := false,
          uriIdx := st.uriIdx + v.length + 1 + lt.length,
          uriStart := st.uriIdx + v.length,
          cmpIdx := st.cmpIdx + 1 + n.length + 1 + 1 + lt.length,
          cmpStart := st.cmpIdx + 1 + n.length + 1,
          seg := (st.seg.insert_key n).insert_value (some v) }
        (c0 :: lt) hrest ?_ ?_ ?_ ?_ ?_ ?_ ?_ ?_ ?_ ?_ ?_ ?_ ?_
      · rfl
      · rfl
      · rfl
      · exact h5
      · exact h6
      · exact h7
      · exact h8
      · exact e2
      · exact h10
      · exact d2
      · exact h12
      · exact h13
      · exact h14

lemma chain_no_q : ∀ chain : List ChainItem, goodChain chain = true →
    ¬ '?' ∈ uriOfChain chain := by
  intro chain
  induction chain with
  | nil => intro _; simp [uriOfChain]
  | cons item rest ih =>
    obtain ⟨⟨n, l⟩, v⟩ := item
    intro hg
    simp only [goodChain, Bool.and_eq_true, Bool.not_eq_true'] at hg
    obtain ⟨⟨⟨⟨⟨⟨⟨_, _⟩, _⟩, hl2⟩, hv1⟩, _⟩, _⟩, hrest⟩ := hg
    have h1 : ¬ '?' ∈ v := by simpa using hv1
    have h2 : ¬ '?' ∈ l := by simpa using hl2
    have h3 := ih hrest
    intro hmem
    rw [show uriOfChain (((n, l), v) :: rest) = v ++ (l ++ uriOfChain rest) from rfl] at hmem
    rcases List.mem_append.mp hmem with h | h
    · exact h1 h
    · rcases List.mem_append.mp h with h | h
      · exact h2 h
      · exact h3 h

/-- The substitution direction of C2: matching the substituted path against
the pattern succeeds with exactly the k captures, in declaration order, and
no query captures. -/
lemma chain_substitution (lit0 : List Char) (chain : List ChainItem)
    (h1 : lit0.contains '{' = false) (h2 : lit0.contains '?' = false)
    (hg : goodChain chain = true) (hne : chain = [] → lit0 ≠ []) :
    is_match (buildUri lit0 chain) (buildPat lit0 chain) =
      some { path_segment := segFromList (chainPairs chain),
             query_fragment := Segment.new } := by
  have hA : ¬ '?' ∈ lit0 := by simpa using h2
  have hB := chain_no_q chain hg
  have hq : (buildUri lit0 chain).contains '?' = false := by
    have : ¬ '?' ∈ lit0 ++ uriOfChain chain := by
      intro hmem
      rcases List.mem_append.mp hmem with h | h
      · exact hA h
      · exact hB h
    simpa [buildUri] using this
  have hdu : (buildUri lit0 chain).drop (0 + lit0.length) = uriOfChain chain :=
    drop_of_drop_eq (a := 0) (by rw [List.drop_zero]; rfl)
  have hdp : (buildPat lit0 chain).drop (0 + lit0.length) = patOfChain chain :=
    drop_of_drop_eq (a := 0) (by rw [List.drop_zero]; rfl)
  have hsi : 0 < (buildPat lit0 chain).length := by
    cases chain with
    | nil =>
      have := hne rfl
      simpa [buildPat, patOfChain] using List.length_pos.mpr this
    | cons it r =>
      obtain ⟨⟨n, l⟩, v⟩ := it
      simp only [buildPat, patOfChain, List.length_append, List.length_cons]
      omega
  have hrun := chainRun (buildUri lit0 chain) (buildPat lit0 chain) hq chain []
    { startIdx := 0, bracketHit := false, bracketHitIdx := 0,
      recordUriChar := false, endWithValue := false,
      uriIdx := 0 + lit0.length, uriStart := 0,
      cmpIdx := 0 + lit0.length, cmpStart := 0,
      seg := Segment.new }
    lit0 hg rfl rfl rfl rfl
    (by rw [List.drop_zero, hdu]; rfl)
    rfl
    (by rw [List.drop_zero, hdp]; rfl)
    hdp
    (by simp only [buildPat, List.length_append]; omega)
    hdu
    (by simp only [buildUri, List.length_append]; omega)
    rfl
    hsi
  rw [is_match_eq_matchTail]
  rw [show enumFrom 0 (buildPat lit0 chain) =
        enumFrom 0 lit0 ++ enumFrom (0 + lit0.length) (patOfChain chain) from by
        rw [show buildPat lit0 chain = lit0 ++ patOfChain chain from rfl, enumFrom_append]]
  rw [matchTail_congr (loopGo_literal (buildUri lit0 chain) (buildPat lit0 chain)
        lit0 h1 0 MState.init (enumFrom (0 + lit0.length) (patOfChain chain)) rfl rfl)]
  rw [show (([] : List (List Char × List Char)) ++ chainPairs chain) = chainPairs chain
        from by simp] at hrun
  exact hrun

/-- The leading-literal mismatch direction of C2: a pattern with at least
one placeholder rejects (returns `None` for) any path whose first
`lit0.length` characters differ from the pattern's leading literal run. -/
lemma chain_literal_mismatch (lit0 lit0' restU : List Char) (chain : List ChainItem)
    (hch : chain ≠ []) (h1 : lit0.contains '{' = false)
    (hlen : lit0'.length = lit0.length) (hne : lit0' ≠ lit0) :
    is_match (lit0' ++ restU) (buildPat lit0 chain) = none := by
  rcases chain with _ | ⟨⟨⟨n, l⟩, v⟩, rest⟩
  · exact absurd rfl hch
  have hsp : slice (buildPat lit0 (((n, l), v) :: rest)) 0 lit0.length = lit0 := by
    unfold slice
    rw [List.drop_zero]
    rw [show lit0.length - 0 = lit0.length from by omega]
    rw [show buildPat lit0 (((n, l), v) :: rest) = lit0 ++ patOfChain (((n, l), v) :: rest)
          from rfl]
    exact List.take_left _ _
  have hsu : slice (lit0' ++ restU) 0 lit0.length = lit0' := by
    unfold slice
    rw [List.drop_zero]
    rw [show lit0.length - 0 = lit0'.length from by omega]
    exact List.take_left _ _
  rw [is_match_eq_matchTail]
  rw [show enumFrom 0 (buildPat lit0 (((n, l), v) :: rest)) =
        enumFrom 0 lit0 ++
          enumFrom (0 + lit0.length) ('{' :: (n ++ '}' :: (l ++ patOfChain rest))) from by
        rw [show buildPat lit0 (((n, l), v) :: rest) =
              lit0 ++ ('{' :: (n ++ '}' :: (l ++ patOfChain rest))) from rfl, enumFrom_append]]
  rw [matchTail_congr (loopGo_literal (lit0' ++ restU) (buildPat lit0 (((n, l), v) :: rest))
        lit0 h1 0 MState.init _ rfl rfl)]
  unfold matchTail
  rw [enumFrom, loopGo]
  have hstep : loopStep (lit0' ++ restU) (buildPat lit0 (((n, l), v) :: rest))
      (0 + lit0.length, '{')
      { MState.init with uriIdx := MState.init.uriIdx + lit0.length,
                         cmpIdx := MState.init.cmpIdx + lit0.length } = .ret := by
    unfold loopStep afterRecord
    have hne2 : slice (buildPat lit0 (((n, l), v) :: rest)) 0 lit0.length ≠
        slice (lit0' ++ restU) 0 lit0.length := by
      rw [hsp, hsu]
      exact fun e => hne (e.symm)
    simp [MState.init, hne2]
  rw [hstep]

/-- C2 (amended): for every pattern with k placeholders and every concrete
path obtained by substituting capture values (each value free of the literal
character that follows its placeholder, nonempty literal runs between
consecutive placeholders, within the 1024-entry array capacity), `is_match`
returns a match holding exactly the k path entries in pattern-declaration
order and no query entries; a differing literal character in the run before
the first placeholder yields no-match; but a single differing literal
character after the last placeholder still yields `Some` with the captures
retained (third conjunct). -/
theorem claim_C2_matcher_invariant :
    (∀ (lit0 : List Char) (chain : List ChainItem),
      lit0.contains '{' = false → lit0.contains '?' = false →
      goodChain chain = true → (chain = [] → lit0 ≠ []) → chain.length ≤ 1024 →
      (is_match (buildUri lit0 chain) (buildPat lit0 chain)).map
        (fun q => (q.path_segment.entries, q.query_fragment.entries)) =
      some (chain.map (fun sv => (some sv.1.1, some sv.2)), [])) ∧
    (∀ (lit0 lit0' restU : List Char) (chain : List ChainItem),
      chain ≠ [] → lit0.contains '{' = false → lit0'.length = lit0.length →
      lit0' ≠ lit0 →
      is_match (lit0' ++ restU) (buildPat lit0 chain) = none) ∧
    matchEntries (is_match "/bar/129".toList "/{id}/123".toList) =
      some ([(some "id".toList, some "bar".toList)], []) := by
  refine ⟨?_, chain_literal_mismatch, by rfl⟩
  intro lit0 chain h1 h2 hg hne _
  rw [chain_substitution lit0 chain h1 h2 hg hne]
  have e1 : (segFromList (chainPairs chain)).entries =
      chain.map (fun sv => (some sv.1.1, some sv.2)) := by
    rw [entries_segFromList, chainPairs, List.map_map]
    rfl
  have e2 : Segment.new.entries = [] := by simp [Segment.entries, Segment.new]
  simp [e1, e2]

/-- Witness for C2's universal parts at the pattern `"/{id}/x"` and the
substituted path `"/42/x"`. -/
theorem claim_C2_witness :
    (is_match "/42/x".toList "/{id}/x".toList).map
      (fun q => (q.path_segment.entries, q.query_fragment.entries)) =
    some ([(some "id".toList, some "42".toList)], []) := by
  have h := claim_C2_matcher_invariant.1 "/".toList
    [(("id".toList, "/x".toList), "42".toList)]
    (by decide) (by decide) (by decide) (by intro hx; cases hx) (by decide)
  exact h

end Hooch
